import Mathlib

/-!
Verification of the synapse piece picker (src/torrent/picker.rs) and the
disk file cache (src/disk/cache.rs).

Machine integers (u32 / usize) are modelled as Nat; Rust saturating_sub
coincides with truncated Nat subtraction.  HashSet<u32> becomes Finset Nat,
HashMap<u32, HashSet<usize>> becomes Finmap over Nat with Finset Nat values.
The iteration order of a Rust HashSet / HashMap is unspecified; wherever the
source iterates over one we fix the ascending order (Finset.sort), and no
theorem below depends on that choice.  Fallible code (the unwrap in the
endgame branch of pick) is modelled with Option: a none result of pick is a
panic of the source.
-/

/-- Modelled from the spec: the PieceField bitmap type is declared in the
torrent module but its source is not in the repository snapshot; spec 4.1
describes it as an ordered sequence of len bits.  The set of set bit indices
is a Finset; well-formedness (all set bits below len) is stated as a
hypothesis where needed, since the picker only ever sets guarded indices. -/
structure PieceField where
  len : Nat
  bits : Finset Nat
deriving DecidableEq

/-- Modelled from the spec: PieceField::new(n), all bits 0, len = n. -/
def PieceField.new (n : Nat) : PieceField := ⟨n, ∅⟩

/-- Modelled from the spec: has(i) tests bit i (spec 4.1). -/
def PieceField.has_piece (pf : PieceField) (i : Nat) : Bool :=
  decide (i ∈ pf.bits)

/-- Modelled from the spec: set(i) sets bit i (spec 4.1); out-of-range set is
a programming error and every call site in the picker guards i < len. -/
def PieceField.set_piece (pf : PieceField) (i : Nat) : PieceField :=
  ⟨pf.len, insert i pf.bits⟩

/-- Modelled from the spec: iter_from(s) yields the ascending indices from s
to len - 1 restricted to set bits (spec 4.2 step 1 scans the peer bitmap
"restricted to bits set in peer_view", and the spec requires that iter_from
yield only set bits or that the caller add the has guard). -/
def PieceField.iter_from (pf : PieceField) (start : Nat) : List Nat :=
  (List.range pf.len).filter (fun i => decide (start ≤ i) && pf.has_piece i)

/-- Modelled from the spec: the Peer record as the picker sees it, an
identifier plus the advertised piece bitmap (torrent::Peer is not in the
repository snapshot). -/
structure Peer where
  id : Nat
  pieces : PieceField

/-- Torrent metadata fields read by Picker::new; pieces is the piece count
returned by info.pieces() in the source. -/
structure Info where
  piece_len : Nat
  total_len : Nat
  pieces : Nat

/-- The map from in-flight sub-block index to the set of peer ids with an
outstanding request for it (waiting_peers in the source). -/
abbrev WaitMap := Finmap (fun _ : Nat => Finset Nat)

/-- State of src/torrent/picker.rs Picker. -/
structure Picker where
  endgame_cnt : Nat
  piece_idx : Nat
  pieces : PieceField
  scale : Nat
  waiting : Finset Nat
  waiting_peers : WaitMap

/-- Picker::new (src/torrent/picker.rs lines 14-36). -/
def Picker.new (info : Info) : Picker :=
  let scale := info.piece_len / 16384
  let compl_piece_len := scale * (info.pieces - 1)
  let lpl0 := info.total_len - info.piece_len * (info.pieces - 1)
  let last_piece_len := if lpl0 % 16384 = 0 then lpl0 / 16384 else lpl0 / 16384 + 1
  let len := compl_piece_len + last_piece_len
  { pieces := PieceField.new len
    piece_idx := 0
    scale := scale
    waiting := ∅
    endgame_cnt := len
    waiting_peers := ∅ }

/-- Inner loop of the normal phase of pick: for i in 0..scale, the first i
with start + i < pieces.len and the bit unset (source lines 41-55). -/
def pick_block (pieces : PieceField) (scale start : Nat) : Option Nat :=
  (List.range scale).find? (fun i =>
    decide (start + i < pieces.len) && !(pieces.has_piece (start + i)))

/-- Outer loop of the normal phase of pick over the indices the peer
advertises (source lines 39-56). -/
def pick_scan (pieces : PieceField) (scale : Nat) : List Nat → Option (Nat × Nat)
  | [] => none
  | idx :: rest =>
    match pick_block pieces scale (idx * scale) with
    | some i => some (idx, i)
    | none => pick_scan pieces scale rest

/-- Endgame scan of the waiting set (source lines 59-64): the first in-flight
sub-block whose containing piece the peer advertises.  The HashSet iteration
order is unspecified, modelled ascending, so the first match is the minimal
matching element. -/
def endgame_find (waiting : Finset Nat) (scale : Nat) (peer_pieces : PieceField) : Option Nat :=
  let c := waiting.filter (fun q => peer_pieces.has_piece (q / scale))
  if h : c.Nonempty then some (c.min' h) else none

/-- Picker::pick (source lines 38-71).  The outer Option is panic: none
models the unwrap failing on the waiting_peers lookup in the endgame branch;
the inner Option is the return value of the source.  The endgame-entry
println at endgame_cnt == 1 is log-only and not modelled. -/
def Picker.pick (st : Picker) (peer : Peer) : Option (Picker × Option (Nat × Nat)) :=
  match pick_scan st.pieces st.scale (peer.pieces.iter_from st.piece_idx) with
  | some (idx, i) =>
    let b := idx * st.scale + i
    some ({ st with
        pieces := st.pieces.set_piece b
        waiting := insert b st.waiting
        waiting_peers := st.waiting_peers.insert b {peer.id}
        endgame_cnt := st.endgame_cnt - 1 },
      some (idx, i * 16384))
  | none =>
    if st.endgame_cnt = 0 then
      match endgame_find st.waiting st.scale peer.pieces with
      | some q =>
        match st.waiting_peers.lookup q with
        | some s =>
          some ({ st with waiting_peers := st.waiting_peers.insert q (insert peer.id s) },
            some (q / st.scale, q % st.scale * 16384))
        | none => none
      | none => some (st, none)
    else some (st, none)

/-- The condition of the early return shared by completed and
update_piece_idx (source lines 81 and 93): the sub-block b is valid and
unscheduled, or still in flight. -/
def block_missing (pieces : PieceField) (waiting : Finset Nat) (b : Nat) : Bool :=
  (decide (b < pieces.len) && !(pieces.has_piece b)) || decide (b ∈ waiting)

/-- Loop of Picker::update_piece_idx (source lines 89-103), fuelled: each
iteration either returns or advances idx by scale, so pieces.len + 1 units
of fuel are enough whenever scale is at least 1 (with scale = 0 the source
loops forever; the model then returns the cursor unchanged once fuel runs
out). -/
def update_aux (pieces : PieceField) (waiting : Finset Nat) (scale : Nat) :
    Nat → Nat → Nat → Nat
  | 0, piece_idx, _ => piece_idx
  | fuel + 1, piece_idx, idx =>
    if (List.range scale).any (fun i => block_missing pieces waiting (idx + i)) then
      piece_idx
    else if pieces.len < idx + scale then
      piece_idx + 1
    else
      update_aux pieces waiting scale fuel (piece_idx + 1) (idx + scale)

/-- Picker::update_piece_idx (source lines 89-103). -/
def Picker.update_piece_idx (st : Picker) : Picker :=
  { st with
    piece_idx := update_aux st.pieces st.waiting st.scale (st.pieces.len + 1)
      st.piece_idx (st.piece_idx * st.scale) }

/-- Picker::completed (source lines 74-87): returns the new state, whether
the whole piece is complete, and the set of peers that had outstanding
requests for the sub-block (empty when the sub-block is unknown). -/
def Picker.completed (st : Picker) (idx offset : Nat) : Picker × Bool × Finset Nat :=
  let o := offset / 16384
  let b := idx * st.scale
  let waiting1 := st.waiting.erase (b + o)
  let peers := (st.waiting_peers.lookup (b + o)).getD ∅
  let wp1 := st.waiting_peers.erase (b + o)
  let st1 : Picker := { st with waiting := waiting1, waiting_peers := wp1 }
  if (List.range st.scale).any (fun i => block_missing st.pieces waiting1 (b + i)) then
    (st1, false, peers)
  else
    (st1.update_piece_idx, true, peers)

/-- Modelled from the spec: invalidate_piece is listed among the four picker
operations (spec 4.2) but its source is not in the repository snapshot.
Spec words: clear all sub-bits of the piece in pieces; remove any matching
entries from waiting / waiting_peers; increase endgame_cnt by the number of
cleared bits; if piece_idx > piece_index, reset piece_idx = piece_index; a
no-op on an unknown index (spec 4.2 with failure semantics). -/
def Picker.invalidate_piece (st : Picker) (p : Nat) : Picker :=
  if st.pieces.len ≤ p * st.scale then st
  else
    let blocks := (Finset.range st.scale).image (fun i => p * st.scale + i)
    let cleared := blocks ∩ st.pieces.bits
    { pieces := ⟨st.pieces.len, st.pieces.bits \ blocks⟩
      piece_idx := if p < st.piece_idx then p else st.piece_idx
      scale := st.scale
      waiting := st.waiting \ blocks
      endgame_cnt := st.endgame_cnt + cleared.card
      waiting_peers := ((List.range st.scale).map (fun i => p * st.scale + i)).foldl
        (fun m b => m.erase b) st.waiting_peers }

/-- State of src/disk/cache.rs FileCache.  File paths are abstracted to Nat
and the open handles carry no state any claim mentions, so the cache is
modelled by its key set. -/
structure FileCache where
  files : Finset Nat

/-- FileCache::new. -/
def FileCache.new : FileCache := ⟨∅⟩

/-- FileCache::get_file (source lines 15-42).  On a miss at capacity the
source evicts the first entry of the HashMap iteration, an arbitrary one;
the model evicts the minimal key.  openOk models the fallible I/O between
eviction and insertion (create_dir_all, open, and the closure, each of which
returns early on failure, after the eviction but before the insertion). -/
def FileCache.get_file (c : FileCache) (max_open_files : Nat) (path : Nat)
    (openOk : Bool) : FileCache :=
  if path ∈ c.files then c
  else
    let files1 := if h : max_open_files ≤ c.files.card ∧ c.files.Nonempty then
        c.files.erase (c.files.min' h.2)
      else c.files
    if openOk then ⟨insert path files1⟩ else ⟨files1⟩

/-- FileCache::remove_file (source lines 44-46). -/
def FileCache.remove_file (c : FileCache) (path : Nat) : FileCache :=
  ⟨c.files.erase path⟩

/-! ## Basic lemmas about the embedded operations -/

theorem has_piece_iff (pf : PieceField) (i : Nat) :
    pf.has_piece i = true ↔ i ∈ pf.bits := by
  simp [PieceField.has_piece]

theorem block_missing_iff (pieces : PieceField) (w : Finset Nat) (b : Nat) :
    block_missing pieces w b = true ↔
      (b < pieces.len ∧ b ∉ pieces.bits) ∨ b ∈ w := by
  simp [block_missing, PieceField.has_piece]

theorem pick_block_eq_some {pieces : PieceField} {scale start i : Nat}
    (h : pick_block pieces scale start = some i) :
    i < scale ∧ start + i < pieces.len ∧ (start + i) ∉ pieces.bits := by
  have hmem := List.mem_of_find?_eq_some h
  have hp := List.find?_some h
  simp only [List.mem_range] at hmem
  simp only [Bool.and_eq_true, decide_eq_true_eq, Bool.not_eq_true',
    PieceField.has_piece, decide_eq_false_iff_not] at hp
  exact ⟨hmem, hp.1, hp.2⟩

theorem pick_block_eq_none {pieces : PieceField} {scale start : Nat}
    (h : pick_block pieces scale start = none) :
    ∀ i < scale, start + i < pieces.len → (start + i) ∈ pieces.bits := by
  intro i hi hlt
  have := List.find?_eq_none.mp h i (List.mem_range.mpr hi)
  simp only [Bool.and_eq_true, decide_eq_true_eq, Bool.not_eq_true',
    PieceField.has_piece, decide_eq_false_iff_not, not_and] at this
  by_contra hb
  exact this hlt hb

theorem pick_block_eq_none_of {pieces : PieceField} {scale start : Nat}
    (h : ∀ i < scale, start + i < pieces.len → (start + i) ∈ pieces.bits) :
    pick_block pieces scale start = none := by
  apply List.find?_eq_none.mpr
  intro i hi
  simp only [List.mem_range] at hi
  simp only [Bool.and_eq_true, decide_eq_true_eq, Bool.not_eq_true',
    PieceField.has_piece, decide_eq_false_iff_not, not_and]
  intro hlt
  exact fun hb => hb (h i hi hlt)

theorem pick_scan_eq_some {pieces : PieceField} {scale : Nat} :
    ∀ {l : List Nat} {idx i : Nat}, pick_scan pieces scale l = some (idx, i) →
      idx ∈ l ∧ pick_block pieces scale (idx * scale) = some i := by
  intro l
  induction l with
  | nil => intro idx i h; simp [pick_scan] at h
  | cons a rest ih =>
    intro idx i h
    simp only [pick_scan] at h
    cases hb : pick_block pieces scale (a * scale) with
    | some j =>
      rw [hb] at h
      cases h
      exact ⟨List.mem_cons_self .., hb⟩
    | none =>
      rw [hb] at h
      rcases ih h with ⟨hm, hpb⟩
      exact ⟨List.mem_cons_of_mem _ hm, hpb⟩

theorem pick_scan_eq_none_of {pieces : PieceField} {scale : Nat}
    {l : List Nat} (h : ∀ idx ∈ l, pick_block pieces scale (idx * scale) = none) :
    pick_scan pieces scale l = none := by
  induction l with
  | nil => simp [pick_scan]
  | cons a rest ih =>
    simp only [pick_scan, h a (List.mem_cons_self ..)]
    exact ih fun idx hm => h idx (List.mem_cons_of_mem _ hm)

theorem mem_iter_from {pf : PieceField} {start idx : Nat}
    (h : idx ∈ pf.iter_from start) : start ≤ idx ∧ idx ∈ pf.bits := by
  simp only [PieceField.iter_from, List.mem_filter, Bool.and_eq_true,
    decide_eq_true_eq, PieceField.has_piece] at h
  exact ⟨h.2.1, h.2.2⟩

theorem endgame_find_eq_some {w : Finset Nat} {scale : Nat} {pp : PieceField}
    {q : Nat} (h : endgame_find w scale pp = some q) :
    q ∈ w ∧ q / scale ∈ pp.bits := by
  simp only [endgame_find] at h
  split at h
  · rename_i hne
    cases h
    have hm := Finset.min'_mem _ hne
    rw [Finset.mem_filter] at hm
    refine ⟨hm.1, ?_⟩
    have hadv := hm.2
    rwa [has_piece_iff] at hadv
  · cases h

theorem endgame_find_eq_none {w : Finset Nat} {scale : Nat} {pp : PieceField}
    (h : endgame_find w scale pp = none) : ∀ q ∈ w, q / scale ∉ pp.bits := by
  intro q hq hadv
  simp only [endgame_find] at h
  split at h
  · cases h
  · rename_i hne
    exact hne ⟨q, Finset.mem_filter.mpr ⟨hq, by simpa [PieceField.has_piece] using hadv⟩⟩

theorem endgame_find_eq_none_of {w : Finset Nat} {scale : Nat} {pp : PieceField}
    (h : ∀ q ∈ w, q / scale ∉ pp.bits) : endgame_find w scale pp = none := by
  simp only [endgame_find]
  split
  · rename_i hne
    rcases hne with ⟨q, hq⟩
    simp only [Finset.mem_filter, PieceField.has_piece, decide_eq_true_eq] at hq
    exact absurd hq.2 (h q hq.1)
  · rfl

theorem Finmap_keys_insert (m : WaitMap) (a : Nat) (b : Finset Nat) :
    (m.insert a b).keys = insert a m.keys := by
  ext k
  simp [Finmap.mem_keys, Finmap.mem_insert]

theorem Finmap_keys_erase (m : WaitMap) (a : Nat) :
    (m.erase a).keys = m.keys.erase a :=
  Finmap.keys_erase a m

theorem Finmap_erase_eq_of_not_mem {m : WaitMap} {a : Nat} (h : a ∉ m) :
    m.erase a = m := by
  apply Finmap.ext_lookup
  intro x
  by_cases hx : x = a
  · subst hx
    rw [Finmap.lookup_erase, Eq.symm (Finmap.lookup_eq_none.mpr h)]
  · exact Finmap.lookup_erase_ne hx

/-! ## Invariant predicates (spec section 3, invariants 1 - 5) -/

/-- Spec invariant 2: the key set of waiting_peers equals waiting. -/
def Picker.WaiterCoherent (st : Picker) : Prop :=
  st.waiting_peers.keys = st.waiting

/-- Well-formedness of a PieceField inside the picker: every set bit of the
scheduling bitmap lies below its length (the bitmap is a sequence of len
bits, so this is part of the data model, not an extra assumption). -/
def Picker.BitsWF (st : Picker) : Prop :=
  ∀ b ∈ st.pieces.bits, b < st.pieces.len

/-- Spec invariant 4: endgame_cnt plus the number of scheduled sub-blocks
equals the total number of sub-blocks. -/
def Picker.EndgameAcct (st : Picker) : Prop :=
  st.endgame_cnt + st.pieces.bits.card = st.pieces.len

/-- Spec invariant 3: every valid sub-block below the cursor is scheduled
and no longer in flight. -/
def Picker.BelowCursorDone (st : Picker) : Prop :=
  ∀ b, b < st.piece_idx * st.scale → b < st.pieces.len →
    b ∈ st.pieces.bits ∧ b ∉ st.waiting

/-- Spec invariant 1: every in-flight sub-block is scheduled. -/
def Picker.WaitingScheduled (st : Picker) : Prop :=
  ∀ b ∈ st.waiting, b ∈ st.pieces.bits

/-- Conjunction of the data-model invariants of spec section 3 (invariant 5,
endgame_cnt bounded by total_blocks, is a consequence of invariant 4). -/
def Picker.Inv (st : Picker) : Prop :=
  st.BitsWF ∧ st.WaiterCoherent ∧ st.EndgameAcct ∧ st.BelowCursorDone ∧
    st.WaitingScheduled

instance (st : Picker) : Decidable st.WaiterCoherent := by
  unfold Picker.WaiterCoherent; infer_instance

instance (st : Picker) : Decidable st.BitsWF := by
  unfold Picker.BitsWF; infer_instance

instance (st : Picker) : Decidable st.EndgameAcct := by
  unfold Picker.EndgameAcct; infer_instance

instance (st : Picker) : Decidable st.BelowCursorDone := by
  unfold Picker.BelowCursorDone; infer_instance

instance (st : Picker) : Decidable st.WaitingScheduled := by
  unfold Picker.WaitingScheduled; infer_instance

instance (st : Picker) : Decidable st.Inv := by
  unfold Picker.Inv; infer_instance

/-! ## Lemmas about the update_piece_idx loop -/

theorem update_aux_le (pieces : PieceField) (w : Finset Nat) (scale : Nat) :
    ∀ fuel pi idx, pi ≤ update_aux pieces w scale fuel pi idx := by
  intro fuel
  induction fuel with
  | zero => intro pi idx; simp [update_aux]
  | succ n ih =>
    intro pi idx
    simp only [update_aux]
    split
    · exact Nat.le_refl _
    · split
      · exact Nat.le_succ _
      · exact Nat.le_trans (Nat.le_succ _) (ih (pi + 1) (idx + scale))

theorem update_aux_done (pieces : PieceField) (w : Finset Nat) (scale : Nat) :
    ∀ fuel pi idx, idx = pi * scale →
      (∀ b, b < pi * scale → b < pieces.len → b ∈ pieces.bits ∧ b ∉ w) →
      ∀ b, b < update_aux pieces w scale fuel pi idx * scale → b < pieces.len →
        b ∈ pieces.bits ∧ b ∉ w := by
  intro fuel
  induction fuel with
  | zero =>
    intro pi idx _ hinv
    simpa only [update_aux] using hinv
  | succ n ih =>
    intro pi idx hidx hinv
    simp only [update_aux]
    split
    · exact hinv
    · rename_i hbad
      have hok : ∀ i < scale, (idx + i < pieces.len → idx + i ∈ pieces.bits) ∧
          (idx + i) ∉ w := by
        intro i hi
        have hnb : ¬ (block_missing pieces w (idx + i) = true) := by
          intro hb
          exact hbad (List.any_eq_true.mpr ⟨i, List.mem_range.mpr hi, hb⟩)
        rw [block_missing_iff] at hnb
        push_neg at hnb
        exact ⟨fun hlt => hnb.1 hlt, hnb.2⟩
      have hmul : (pi + 1) * scale = pi * scale + scale := by ring
      have hinv1 : ∀ b, b < (pi + 1) * scale → b < pieces.len →
          b ∈ pieces.bits ∧ b ∉ w := by
        intro b hb hlen
        rw [hmul] at hb
        by_cases hlo : b < pi * scale
        · exact hinv b hlo hlen
        · push_neg at hlo
          have hi : b - pi * scale < scale := by omega
          have hb' : idx + (b - pi * scale) = b := by omega
          have hres := hok (b - pi * scale) hi
          rw [hb'] at hres
          exact ⟨hres.1 hlen, hres.2⟩
      split
      · exact hinv1
      · exact ih (pi + 1) (idx + scale) (by rw [hidx]; ring) hinv1

/-! ## Case analysis of pick -/

theorem pick_eq_normal {st : Picker} {peer : Peer} {idx i : Nat}
    (hscan : pick_scan st.pieces st.scale (peer.pieces.iter_from st.piece_idx) = some (idx, i)) :
    st.pick peer = some ({ st with
        pieces := st.pieces.set_piece (idx * st.scale + i)
        waiting := insert (idx * st.scale + i) st.waiting
        waiting_peers := st.waiting_peers.insert (idx * st.scale + i) {peer.id}
        endgame_cnt := st.endgame_cnt - 1 },
      some (idx, i * 16384)) := by
  unfold Picker.pick
  rw [hscan]

theorem pick_eq_endgame_hit {st : Picker} {peer : Peer} {q : Nat} {s : Finset Nat}
    (hscan : pick_scan st.pieces st.scale (peer.pieces.iter_from st.piece_idx) = none)
    (hend : st.endgame_cnt = 0)
    (hq : endgame_find st.waiting st.scale peer.pieces = some q)
    (hl : st.waiting_peers.lookup q = some s) :
    st.pick peer = some ({ st with
        waiting_peers := st.waiting_peers.insert q (insert peer.id s) },
      some (q / st.scale, q % st.scale * 16384)) := by
  unfold Picker.pick
  simp only [hscan, hend, if_pos, hq, hl]

theorem pick_eq_endgame_panic {st : Picker} {peer : Peer} {q : Nat}
    (hscan : pick_scan st.pieces st.scale (peer.pieces.iter_from st.piece_idx) = none)
    (hend : st.endgame_cnt = 0)
    (hq : endgame_find st.waiting st.scale peer.pieces = some q)
    (hl : st.waiting_peers.lookup q = none) :
    st.pick peer = none := by
  unfold Picker.pick
  simp only [hscan, hend, if_pos, hq, hl]

theorem pick_eq_endgame_none {st : Picker} {peer : Peer}
    (hscan : pick_scan st.pieces st.scale (peer.pieces.iter_from st.piece_idx) = none)
    (hend : st.endgame_cnt = 0)
    (hq : endgame_find st.waiting st.scale peer.pieces = none) :
    st.pick peer = some (st, none) := by
  unfold Picker.pick
  simp only [hscan, hend, if_pos, hq]

theorem pick_eq_no_endgame {st : Picker} {peer : Peer}
    (hscan : pick_scan st.pieces st.scale (peer.pieces.iter_from st.piece_idx) = none)
    (hend : st.endgame_cnt ≠ 0) :
    st.pick peer = some (st, none) := by
  unfold Picker.pick
  simp only [hscan, if_neg hend]

theorem pick_cases (st : Picker) (peer : Peer) :
    (∃ idx i, pick_scan st.pieces st.scale (peer.pieces.iter_from st.piece_idx) = some (idx, i) ∧
      st.pick peer = some ({ st with
          pieces := st.pieces.set_piece (idx * st.scale + i)
          waiting := insert (idx * st.scale + i) st.waiting
          waiting_peers := st.waiting_peers.insert (idx * st.scale + i) {peer.id}
          endgame_cnt := st.endgame_cnt - 1 },
        some (idx, i * 16384))) ∨
    (pick_scan st.pieces st.scale (peer.pieces.iter_from st.piece_idx) = none ∧
      st.endgame_cnt = 0 ∧
      ∃ q s, endgame_find st.waiting st.scale peer.pieces = some q ∧
        st.waiting_peers.lookup q = some s ∧
        st.pick peer = some ({ st with
            waiting_peers := st.waiting_peers.insert q (insert peer.id s) },
          some (q / st.scale, q % st.scale * 16384))) ∨
    (pick_scan st.pieces st.scale (peer.pieces.iter_from st.piece_idx) = none ∧
      st.endgame_cnt = 0 ∧
      ∃ q, endgame_find st.waiting st.scale peer.pieces = some q ∧
        st.waiting_peers.lookup q = none ∧ st.pick peer = none) ∨
    (pick_scan st.pieces st.scale (peer.pieces.iter_from st.piece_idx) = none ∧
      st.endgame_cnt = 0 ∧
      endgame_find st.waiting st.scale peer.pieces = none ∧
      st.pick peer = some (st, none)) ∨
    (pick_scan st.pieces st.scale (peer.pieces.iter_from st.piece_idx) = none ∧
      st.endgame_cnt ≠ 0 ∧ st.pick peer = some (st, none)) := by
  cases hscan : pick_scan st.pieces st.scale (peer.pieces.iter_from st.piece_idx) with
  | some pr =>
    obtain ⟨idx, i⟩ := pr
    exact Or.inl ⟨idx, i, rfl, pick_eq_normal hscan⟩
  | none =>
    by_cases hend : st.endgame_cnt = 0
    · cases hq : endgame_find st.waiting st.scale peer.pieces with
      | some q =>
        cases hl : st.waiting_peers.lookup q with
        | some s =>
          exact Or.inr (Or.inl ⟨rfl, hend, q, s, rfl, hl,
            pick_eq_endgame_hit hscan hend hq hl⟩)
        | none =>
          exact Or.inr (Or.inr (Or.inl ⟨rfl, hend, q, rfl, hl,
            pick_eq_endgame_panic hscan hend hq hl⟩))
      | none =>
        exact Or.inr (Or.inr (Or.inr (Or.inl ⟨rfl, hend, rfl,
          pick_eq_endgame_none hscan hend hq⟩)))
    · exact Or.inr (Or.inr (Or.inr (Or.inr ⟨rfl, hend,
        pick_eq_no_endgame hscan hend⟩)))

/-! ## Claim theorems -/

/-- C8: across any sequence of pick and completed calls the cursor piece_idx
never decreases; each single call leaves it greater than or equal to its
previous value (pick on a success, completed always). -/
theorem pick_completed_cursor_monotone :
    (∀ (st : Picker) (peer : Peer) (st' : Picker) (r : Option (Nat × Nat)),
      st.pick peer = some (st', r) → st.piece_idx ≤ st'.piece_idx) ∧
    (∀ (st : Picker) (idx offset : Nat),
      st.piece_idx ≤ ((st.completed idx offset).1).piece_idx) := by
  constructor
  · intro st peer st' r h
    rcases pick_cases st peer with
      ⟨idx, i, _, heq⟩ | ⟨_, _, q, s, _, _, heq⟩ | ⟨_, _, q, _, _, heq⟩ |
      ⟨_, _, _, heq⟩ | ⟨_, _, heq⟩ <;> rw [heq] at h
    · injection h with h2
      injection h2 with h3 h4
      subst h3
      exact Nat.le_refl _
    · injection h with h2
      injection h2 with h3 h4
      subst h3
      exact Nat.le_refl _
    · cases h
    · injection h with h2
      injection h2 with h3 h4
      subst h3
      exact Nat.le_refl _
    · injection h with h2
      injection h2 with h3 h4
      subst h3
      exact Nat.le_refl _
  · intro st idx offset
    simp only [Picker.completed]
    split
    · exact Nat.le_refl _
    · exact update_aux_le ..

/-- C10: from any state in which every element of waiting has an entry in
waiting_peers, pick never panics: the lookup the source unwraps in the
endgame branch always succeeds because the chosen sub-block is drawn from
waiting. -/
theorem pick_never_panics (st : Picker) (peer : Peer)
    (h : ∀ k ∈ st.waiting, (st.waiting_peers.lookup k).isSome) :
    (st.pick peer).isSome := by
  rcases pick_cases st peer with
    ⟨idx, i, _, heq⟩ | ⟨_, _, q, s, _, _, heq⟩ | ⟨_, _, q, hq, hl, heq⟩ |
    ⟨_, _, _, heq⟩ | ⟨_, _, heq⟩ <;> rw [heq]
  · rfl
  · rfl
  · have hqw := (endgame_find_eq_some hq).1
    have hs := h q hqw
    rw [hl] at hs
    cases hs
  · rfl
  · rfl

/-- C9: with max_open_files at least 1, the cache starts empty and every
get_file and remove_file call keeps the number of cached handles at most
max_open_files (a miss at capacity evicts one entry before inserting). -/
theorem file_cache_bounded (max : Nat) (hmax : 1 ≤ max) :
    FileCache.new.files.card ≤ max ∧
    (∀ (c : FileCache) (path : Nat) (ok : Bool), c.files.card ≤ max →
      (c.get_file max path ok).files.card ≤ max) ∧
    (∀ (c : FileCache) (path : Nat), c.files.card ≤ max →
      (c.remove_file path).files.card ≤ max) := by
  refine ⟨by simp [FileCache.new], ?_, ?_⟩
  · intro c path ok hc
    simp only [FileCache.get_file]
    split
    · exact hc
    · have hf1 : (if h : max ≤ c.files.card ∧ c.files.Nonempty then
          c.files.erase (c.files.min' h.2) else c.files).card ≤ max - 1 := by
        split
        · rename_i hcap
          have hce := Finset.card_erase_of_mem (Finset.min'_mem _ hcap.2)
          omega
        · rename_i hcap
          rcases Nat.lt_or_ge c.files.card max with hlt | hge
          · omega
          · exact absurd ⟨hge, Finset.card_pos.mp (by omega)⟩ hcap
      split
      · dsimp only
        exact Nat.le_trans (Finset.card_insert_le ..) (by omega)
      · dsimp only
        omega
  · intro c path hc
    simp only [FileCache.remove_file]
    exact Nat.le_trans (Finset.card_erase_le ..) hc

/-- C1: a successful pick only ever returns a piece the peer advertises, and
every newly scheduled sub-block belongs to a piece the peer advertises (the
normal phase scans peer.pieces.iter_from, which yields only set bits). -/
theorem pick_only_advertised (st : Picker) (peer : Peer) (hscale : 1 ≤ st.scale)
    (st' : Picker) (r : Option (Nat × Nat)) (h : st.pick peer = some (st', r)) :
    (∀ p off, r = some (p, off) → p ∈ peer.pieces.bits) ∧
    (∀ b ∈ st'.waiting, b ∉ st.waiting → b / st.scale ∈ peer.pieces.bits) := by
  rcases pick_cases st peer with
    ⟨idx, i, hscan, heq⟩ | ⟨_, _, q, s, hq, _, heq⟩ | ⟨_, _, q, _, _, heq⟩ |
    ⟨_, _, _, heq⟩ | ⟨_, _, heq⟩ <;> rw [heq] at h
  · injection h with h2
    injection h2 with h3 h4
    subst h3
    subst h4
    obtain ⟨hmem, hpb⟩ := pick_scan_eq_some hscan
    obtain ⟨hstart, hadv⟩ := mem_iter_from hmem
    obtain ⟨hi, _, _⟩ := pick_block_eq_some hpb
    have hdiv : (idx * st.scale + i) / st.scale = idx := by
      rw [Nat.add_comm, Nat.add_mul_div_right _ _ (by omega : 0 < st.scale),
        Nat.div_eq_of_lt hi, Nat.zero_add]
    constructor
    · intro p off hro
      injection hro with hro2
      injection hro2 with hp hoff
      subst hp
      exact hadv
    · intro b hb hbn
      rcases Finset.mem_insert.mp hb with hb1 | hb2
      · subst hb1
        rw [hdiv]
        exact hadv
      · exact absurd hb2 hbn
  · injection h with h2
    injection h2 with h3 h4
    subst h3
    subst h4
    have hadv := (endgame_find_eq_some hq).2
    constructor
    · intro p off hro
      injection hro with hro2
      injection hro2 with hp hoff
      subst hp
      exact hadv
    · intro b hb hbn
      exact absurd hb hbn
  · cases h
  · injection h with h2
    injection h2 with h3 h4
    subst h3
    subst h4
    refine ⟨?_, ?_⟩
    · intro p off hro
      cases hro
    · intro b hb hbn
      exact absurd hb hbn
  · injection h with h2
    injection h2 with h3 h4
    subst h3
    subst h4
    refine ⟨?_, ?_⟩
    · intro p off hro
      cases hro
    · intro b hb hbn
      exact absurd hb hbn

/-- C5: the key set of waiting_peers equals waiting after construction, and
pick and completed preserve that equality. -/
theorem waiter_coherence (info0 : Info) :
    (Picker.new info0).WaiterCoherent ∧
    (∀ (st : Picker) (peer : Peer) (st' : Picker) (r : Option (Nat × Nat)),
      st.WaiterCoherent → st.pick peer = some (st', r) → st'.WaiterCoherent) ∧
    (∀ (st : Picker) (idx offset : Nat),
      st.WaiterCoherent → ((st.completed idx offset).1).WaiterCoherent) := by
  refine ⟨?_, ?_, ?_⟩
  · simp [Picker.new, Picker.WaiterCoherent, Finmap.keys_empty]
  · intro st peer st' r hcoh h
    rcases pick_cases st peer with
      ⟨idx, i, hscan, heq⟩ | ⟨_, _, q, s, hq, hl, heq⟩ | ⟨_, _, q, _, _, heq⟩ |
      ⟨_, _, _, heq⟩ | ⟨_, _, heq⟩ <;> rw [heq] at h
    · injection h with h2
      injection h2 with h3 h4
      subst h3
      show ((st.waiting_peers.insert (idx * st.scale + i) {peer.id})).keys =
        insert (idx * st.scale + i) st.waiting
      rw [Finmap_keys_insert, hcoh]
    · injection h with h2
      injection h2 with h3 h4
      subst h3
      show ((st.waiting_peers.insert q (insert peer.id s))).keys = st.waiting
      rw [Finmap_keys_insert]
      have hqm : q ∈ st.waiting_peers.keys := by
        rw [Finmap.mem_keys]
        rw [← Finmap.lookup_isSome, hl]
        rfl
      rw [Finset.insert_eq_self.mpr hqm, hcoh]
    · cases h
    · injection h with h2
      injection h2 with h3 h4
      subst h3
      exact hcoh
    · injection h with h2
      injection h2 with h3 h4
      subst h3
      exact hcoh
  · intro st idx offset hcoh
    simp only [Picker.completed]
    split
    · show ((st.waiting_peers.erase _)).keys = st.waiting.erase _
      rw [Finmap_keys_erase, hcoh]
    · show ((st.waiting_peers.erase _)).keys = st.waiting.erase _
      rw [Finmap_keys_erase, hcoh]

/-- Total number of sub-blocks of the torrent, spec section 3:
scale times (num_pieces - 1) plus the rounded-up block count of the last
piece. -/
def totalBlocks (info : Info) : Nat :=
  info.piece_len / 16384 * (info.pieces - 1) +
    (info.total_len - info.piece_len * (info.pieces - 1) + 16383) / 16384

/-- C6: at construction endgame_cnt equals total_blocks with an all-zero
bitmap, and pick and completed preserve endgame_cnt plus the number of
scheduled sub-blocks equal to the total. -/
theorem endgame_accounting (info0 : Info) :
    ((Picker.new info0).endgame_cnt = totalBlocks info0 ∧
      (Picker.new info0).EndgameAcct) ∧
    (∀ (st : Picker) (peer : Peer) (st' : Picker) (r : Option (Nat × Nat)),
      st.BitsWF → st.EndgameAcct → st.pick peer = some (st', r) →
        st'.EndgameAcct) ∧
    (∀ (st : Picker) (idx offset : Nat),
      st.EndgameAcct → ((st.completed idx offset).1).EndgameAcct) := by
  refine ⟨⟨?_, ?_⟩, ?_, ?_⟩
  · simp only [Picker.new, totalBlocks, PieceField.new]
    congr 1
    split <;> omega
  · simp [Picker.new, Picker.EndgameAcct, PieceField.new]
  · intro st peer st' r hwf hacct h
    rcases pick_cases st peer with
      ⟨idx, i, hscan, heq⟩ | ⟨_, _, q, s, hq, hl, heq⟩ | ⟨_, _, q, _, _, heq⟩ |
      ⟨_, _, _, heq⟩ | ⟨_, _, heq⟩ <;> rw [heq] at h
    · injection h with h2
      injection h2 with h3 h4
      subst h3
      obtain ⟨_, hpb⟩ := pick_scan_eq_some hscan
      obtain ⟨_, hblt, hbnotin⟩ := pick_block_eq_some hpb
      show st.endgame_cnt - 1 + (insert (idx * st.scale + i) st.pieces.bits).card =
        st.pieces.len
      rw [Finset.card_insert_of_not_mem hbnotin]
      have hsub : st.pieces.bits ⊆ Finset.range st.pieces.len := fun x hx =>
        Finset.mem_range.mpr (hwf x hx)
      have hcnt : 1 ≤ st.endgame_cnt := by
        by_contra hz
        have he0 : st.endgame_cnt = 0 := by omega
        have hcard : st.pieces.bits.card = st.pieces.len := by
          have := hacct
          unfold Picker.EndgameAcct at this
          omega
        have heqset : st.pieces.bits = Finset.range st.pieces.len :=
          Finset.eq_of_subset_of_card_le hsub (by
            rw [Finset.card_range]; omega)
        exact hbnotin (heqset ▸ Finset.mem_range.mpr hblt)
      have := hacct
      unfold Picker.EndgameAcct at this
      omega
    · injection h with h2
      injection h2 with h3 h4
      subst h3
      exact hacct
    · cases h
    · injection h with h2
      injection h2 with h3 h4
      subst h3
      exact hacct
    · injection h with h2
      injection h2 with h3 h4
      subst h3
      exact hacct
  · intro st idx offset hacct
    simp only [Picker.completed]
    split
    · exact hacct
    · exact hacct

/-- C7: pick and completed preserve the cursor invariant: every valid
sub-block strictly below piece_idx times scale is scheduled and not in
flight. -/
theorem below_cursor_done (st : Picker) :
    (∀ (peer : Peer) (st' : Picker) (r : Option (Nat × Nat)),
      st.BelowCursorDone → st.pick peer = some (st', r) → st'.BelowCursorDone) ∧
    (∀ (idx offset : Nat),
      st.BelowCursorDone → ((st.completed idx offset).1).BelowCursorDone) := by
  constructor
  · intro peer st' r hinv h
    rcases pick_cases st peer with
      ⟨idx, i, hscan, heq⟩ | ⟨_, _, q, s, hq, hl, heq⟩ | ⟨_, _, q, _, _, heq⟩ |
      ⟨_, _, _, heq⟩ | ⟨_, _, heq⟩ <;> rw [heq] at h
    · injection h with h2
      injection h2 with h3 h4
      subst h3
      obtain ⟨hmem, hpb⟩ := pick_scan_eq_some hscan
      obtain ⟨hstart, _⟩ := mem_iter_from hmem
      unfold Picker.BelowCursorDone
      dsimp only [PieceField.set_piece]
      intro b hb hlen
      obtain ⟨hbit, hnw⟩ := hinv b hb hlen
      have hble : st.piece_idx * st.scale ≤ idx * st.scale + i :=
        Nat.le_trans (Nat.mul_le_mul_right _ hstart) (Nat.le_add_right _ _)
      refine ⟨Finset.mem_insert_of_mem hbit, ?_⟩
      intro hbw
      rcases Finset.mem_insert.mp hbw with hb1 | hb2
      · omega
      · exact hnw hb2
    · injection h with h2
      injection h2 with h3 h4
      subst h3
      exact hinv
    · cases h
    · injection h with h2
      injection h2 with h3 h4
      subst h3
      exact hinv
    · injection h with h2
      injection h2 with h3 h4
      subst h3
      exact hinv
  · intro idx offset hinv
    have hinv1 : ∀ b, b < st.piece_idx * st.scale → b < st.pieces.len →
        b ∈ st.pieces.bits ∧ b ∉ st.waiting.erase (idx * st.scale + offset / 16384) := by
      intro b hb hlen
      obtain ⟨hbit, hnw⟩ := hinv b hb hlen
      exact ⟨hbit, fun hmem => hnw (Finset.mem_of_mem_erase hmem)⟩
    simp only [Picker.completed]
    split
    · exact hinv1
    · intro b hb hlen
      exact update_aux_done _ _ _ _ _ _ rfl hinv1 b hb hlen

/-! ## Corrections: C2 and C3 -/

/-- Endgame state for the C2 counterexample: one sub-block (scale 1, one
piece), scheduled and in flight, with peer 7 already the only waiter. -/
def exC2st : Picker := ⟨0, 0, ⟨1, {0}⟩, 1, {0}, Finmap.insert 0 {7} ∅⟩

/-- Peer 7 advertising the only piece. -/
def exC2peer : Peer := ⟨7, ⟨1, {0}⟩⟩

/-- C2 counterexample: in endgame, although peer 7 already holds an
outstanding request for the only in-flight sub-block 0, pick still returns
that sub-block instead of returning nothing: the source inserts peer.id
without any membership check on waiting_peers. -/
theorem pick_endgame_no_member_check :
    exC2st.endgame_cnt = 0 ∧
    exC2st.waiting = {0} ∧
    exC2peer.id ∈ (exC2st.waiting_peers.lookup 0).getD ∅ ∧
    (exC2st.pick exC2peer).map (fun x => x.2) = some (some (0, 0)) :=
  ⟨rfl, rfl, by decide, by decide⟩

/-- C2 amended: in endgame (with the data-model invariants), pick returns an
in-flight sub-block q as (q / scale, (q mod scale) times BLOCK) only if the
peer advertises piece q / scale, whether or not peer.id is already among its
waiters; only when the peer advertises no piece with an in-flight sub-block
does pick return nothing. -/
theorem pick_endgame_amended (st : Picker) (peer : Peer)
    (hend : st.endgame_cnt = 0) (hwf : st.BitsWF) (hacct : st.EndgameAcct)
    (hcoh : ∀ k ∈ st.waiting, (st.waiting_peers.lookup k).isSome) :
    (∀ st' p off, st.pick peer = some (st', some (p, off)) →
      ∃ q ∈ st.waiting, q / st.scale ∈ peer.pieces.bits ∧
        p = q / st.scale ∧ off = q % st.scale * 16384 ∧
        peer.id ∈ (st'.waiting_peers.lookup q).getD ∅ ∧
        ∃ s, st.waiting_peers.lookup q = some s ∧
          st'.waiting_peers = st.waiting_peers.insert q (insert peer.id s)) ∧
    (∀ st', st.pick peer = some (st', none) →
      ∀ q ∈ st.waiting, q / st.scale ∉ peer.pieces.bits) ∧
    ((∀ q ∈ st.waiting, q / st.scale ∉ peer.pieces.bits) →
      st.pick peer = some (st, none)) := by
  have hall : st.pieces.bits = Finset.range st.pieces.len := by
    have hsub : st.pieces.bits ⊆ Finset.range st.pieces.len := fun x hx =>
      Finset.mem_range.mpr (hwf x hx)
    have hcard : st.pieces.bits.card = st.pieces.len := by
      have := hacct
      unfold Picker.EndgameAcct at this
      omega
    exact Finset.eq_of_subset_of_card_le hsub (by rw [Finset.card_range]; omega)
  have hscan : pick_scan st.pieces st.scale (peer.pieces.iter_from st.piece_idx) = none := by
    apply pick_scan_eq_none_of
    intro idx _
    apply pick_block_eq_none_of
    intro i _ hlt
    rw [hall]
    exact Finset.mem_range.mpr hlt
  refine ⟨?_, ?_, ?_⟩
  · intro st' p off h
    cases hq : endgame_find st.waiting st.scale peer.pieces with
    | some q =>
      cases hl : st.waiting_peers.lookup q with
      | some s =>
        rw [pick_eq_endgame_hit hscan hend hq hl] at h
        injection h with h2
        injection h2 with h3 h4
        injection h4 with h5
        injection h5 with hp hoff
        obtain ⟨hqw, hqadv⟩ := endgame_find_eq_some hq
        have hwpe : st'.waiting_peers = st.waiting_peers.insert q (insert peer.id s) := by
          rw [← h3]
        refine ⟨q, hqw, hqadv, hp.symm, hoff.symm, ?_, s, hl, hwpe⟩
        rw [hwpe, Finmap.lookup_insert]
        exact Finset.mem_insert_self ..
      | none =>
        have hs := hcoh q (endgame_find_eq_some hq).1
        rw [hl] at hs
        cases hs
    | none =>
      rw [pick_eq_endgame_none hscan hend hq] at h
      injection h with h2
      injection h2 with h3 h4
      cases h4
  · intro st' h q hqw hqadv
    cases hq : endgame_find st.waiting st.scale peer.pieces with
    | some q2 =>
      cases hl : st.waiting_peers.lookup q2 with
      | some s =>
        rw [pick_eq_endgame_hit hscan hend hq hl] at h
        injection h with h2
        injection h2 with h3 h4
        cases h4
      | none =>
        have hs := hcoh q2 (endgame_find_eq_some hq).1
        rw [hl] at hs
        cases hs
    | none =>
      exact endgame_find_eq_none hq q hqw hqadv
  · intro hnone
    exact pick_eq_endgame_none hscan hend (endgame_find_eq_none_of hnone)

/-- State for the C3 counterexample: one sub-block (scale 1), scheduled and
already completed (not in flight), cursor still at 0. -/
def exC3st : Picker := ⟨0, 0, ⟨1, {0}⟩, 1, ∅, ∅⟩

/-- C3 counterexample: completed on a sub-block that is not in waiting does
not always return (false, empty): when the containing piece is entirely
scheduled and none of it is in flight, the source returns (true, empty) and
advances the cursor (here from 0 to 2). -/
theorem completed_unknown_not_always_false :
    (0 * exC3st.scale + 0 / 16384) ∉ exC3st.waiting ∧
    (exC3st.completed 0 0).2.1 = true ∧
    exC3st.piece_idx = 0 ∧
    (exC3st.completed 0 0).1.piece_idx = 2 :=
  ⟨by decide, by decide, rfl, by decide⟩

/-- C3 amended: completed on a sub-block index not in waiting (from a state
with coherent waiter keys) returns the empty peer set and leaves pieces,
waiting, waiting_peers and endgame_cnt unchanged; it returns false exactly
when some sub-block of the containing piece is valid-and-unscheduled or
in flight, and otherwise returns true (and may advance piece_idx). -/
theorem completed_unknown_amended (st : Picker) (idx offset : Nat)
    (hnot : (idx * st.scale + offset / 16384) ∉ st.waiting)
    (hcoh : st.WaiterCoherent) :
    (st.completed idx offset).2.2 = ∅ ∧
    (st.completed idx offset).1.pieces = st.pieces ∧
    (st.completed idx offset).1.waiting = st.waiting ∧
    (st.completed idx offset).1.waiting_peers = st.waiting_peers ∧
    (st.completed idx offset).1.endgame_cnt = st.endgame_cnt ∧
    ((st.completed idx offset).2.1 = false ↔
      ∃ i < st.scale, (idx * st.scale + i < st.pieces.len ∧
        (idx * st.scale + i) ∉ st.pieces.bits) ∨ (idx * st.scale + i) ∈ st.waiting) := by
  have hkm : (idx * st.scale + offset / 16384) ∉ st.waiting_peers := by
    intro hmem
    apply hnot
    rw [← hcoh]
    exact Finmap.mem_keys.mpr hmem
  have hek : st.waiting.erase (idx * st.scale + offset / 16384) = st.waiting :=
    Finset.erase_eq_of_not_mem hnot
  have hwp : st.waiting_peers.erase (idx * st.scale + offset / 16384) = st.waiting_peers :=
    Finmap_erase_eq_of_not_mem hkm
  have hlk : st.waiting_peers.lookup (idx * st.scale + offset / 16384) = none :=
    Finmap.lookup_eq_none.mpr hkm
  simp only [Picker.completed, hek, hwp, hlk]
  split
  · rename_i hcond
    refine ⟨rfl, rfl, rfl, rfl, rfl, ?_⟩
    simp only [List.any_eq_true, List.mem_range, block_missing_iff] at hcond
    simpa using hcond
  · rename_i hcond
    refine ⟨rfl, rfl, rfl, rfl, rfl, ?_⟩
    simp only [List.any_eq_true, List.mem_range, block_missing_iff] at hcond
    constructor
    · intro hfalse
      cases hfalse
    · intro hex
      exact absurd (by simpa using hex) hcond

/-! ## C4: invalidate_piece -/

theorem lookup_foldl_erase (l : List Nat) :
    ∀ (m : WaitMap) (k : Nat),
      (l.foldl (fun m b => m.erase b) m).lookup k =
        if k ∈ l then none else m.lookup k := by
  induction l with
  | nil => intro m k; simp
  | cons a rest ih =>
    intro m k
    simp only [List.foldl_cons, ih]
    by_cases hk : k ∈ rest
    · simp [hk]
    · by_cases hka : k = a
      · subst hka
        simp [hk, Finmap.lookup_erase]
      · simp [hk, hka, Finmap.lookup_erase_ne hka]

/-- The set of sub-block indices of piece p (valid or not; invalid ones are
never set, in flight, or mapped in any well-formed state). -/
def blocksOf (st : Picker) (p : Nat) : Finset Nat :=
  (Finset.range st.scale).image (fun i => p * st.scale + i)

theorem mem_blocksOf {st : Picker} {p k : Nat} :
    k ∈ blocksOf st p ↔ ∃ i < st.scale, k = p * st.scale + i := by
  simp only [blocksOf, Finset.mem_image, Finset.mem_range]
  constructor
  · rintro ⟨i, hi, hk⟩
    exact ⟨i, hi, hk.symm⟩
  · rintro ⟨i, hi, hk⟩
    exact ⟨i, hi, hk.symm⟩

theorem mem_map_range_iff_blocksOf {st : Picker} {p k : Nat} :
    k ∈ (List.range st.scale).map (fun i => p * st.scale + i) ↔ k ∈ blocksOf st p := by
  simp only [List.mem_map, List.mem_range, mem_blocksOf]
  constructor
  · rintro ⟨i, hi, hk⟩
    exact ⟨i, hi, hk.symm⟩
  · rintro ⟨i, hi, hk⟩
    exact ⟨i, hi, hk.symm⟩

/-- C4 (invalidate_piece is modelled from the spec, its source being outside
the snapshot): on a known piece index it clears every sub-bit of the piece,
removes the matching waiting and waiting_peers entries, increases
endgame_cnt by the number of cleared bits, resets the cursor to the piece
index when the cursor was beyond it, and re-establishes the data-model
invariants; on an unknown index it is a no-op. -/
theorem invalidate_piece_spec (st : Picker) (p : Nat) (hInv : st.Inv) :
    (st.pieces.len ≤ p * st.scale → st.invalidate_piece p = st) ∧
    (p * st.scale < st.pieces.len →
      (st.invalidate_piece p).pieces.bits = st.pieces.bits \ blocksOf st p ∧
      (∀ b ∈ blocksOf st p, b ∉ (st.invalidate_piece p).pieces.bits) ∧
      (st.invalidate_piece p).waiting = st.waiting \ blocksOf st p ∧
      (∀ k, (st.invalidate_piece p).waiting_peers.lookup k =
        if k ∈ blocksOf st p then none else st.waiting_peers.lookup k) ∧
      (st.invalidate_piece p).endgame_cnt =
        st.endgame_cnt + (blocksOf st p ∩ st.pieces.bits).card ∧
      (st.invalidate_piece p).piece_idx =
        (if p < st.piece_idx then p else st.piece_idx)) ∧
    (st.invalidate_piece p).Inv := by
  obtain ⟨hwf, hcoh, hacct, hbcd, hws⟩ := hInv
  have hlookup : p * st.scale < st.pieces.len → ∀ k,
      (st.invalidate_piece p).waiting_peers.lookup k =
        if k ∈ blocksOf st p then none else st.waiting_peers.lookup k := by
    intro hlt k
    simp only [Picker.invalidate_piece, if_neg (by omega : ¬ st.pieces.len ≤ p * st.scale)]
    rw [lookup_foldl_erase]
    by_cases hk : k ∈ blocksOf st p
    · rw [if_pos (mem_map_range_iff_blocksOf.mpr hk), if_pos hk]
    · rw [if_neg (fun h => hk (mem_map_range_iff_blocksOf.mp h)), if_neg hk]
  refine ⟨?_, ?_, ?_⟩
  · intro hle
    simp only [Picker.invalidate_piece, if_pos hle]
  · intro hlt
    refine ⟨?_, ?_, ?_, hlookup hlt, ?_, ?_⟩
    · simp only [Picker.invalidate_piece, if_neg (by omega : ¬ st.pieces.len ≤ p * st.scale)]
      rfl
    · intro b hb
      simp only [Picker.invalidate_piece, if_neg (by omega : ¬ st.pieces.len ≤ p * st.scale)]
      intro hmem
      exact (Finset.mem_sdiff.mp hmem).2 hb
    · simp only [Picker.invalidate_piece, if_neg (by omega : ¬ st.pieces.len ≤ p * st.scale)]
      rfl
    · simp only [Picker.invalidate_piece, if_neg (by omega : ¬ st.pieces.len ≤ p * st.scale)]
      rfl
    · simp only [Picker.invalidate_piece, if_neg (by omega : ¬ st.pieces.len ≤ p * st.scale)]
  · by_cases hle : st.pieces.len ≤ p * st.scale
    · simp only [Picker.invalidate_piece, if_pos hle]
      exact ⟨hwf, hcoh, hacct, hbcd, hws⟩
    · have hlt : p * st.scale < st.pieces.len := by omega
      have hpiece_le : (if p < st.piece_idx then p else st.piece_idx) ≤ st.piece_idx := by
        split <;> omega
      have hpiece_lep : (if p < st.piece_idx then p else st.piece_idx) ≤ p := by
        split <;> omega
      refine ⟨?_, ?_, ?_, ?_, ?_⟩
      · intro b hb
        simp only [Picker.invalidate_piece, if_neg hle] at hb ⊢
        exact hwf b (Finset.mem_sdiff.mp hb).1
      · show (st.invalidate_piece p).waiting_peers.keys = (st.invalidate_piece p).waiting
        have hwaiting : (st.invalidate_piece p).waiting = st.waiting \ blocksOf st p := by
          simp only [Picker.invalidate_piece, if_neg hle]
          rfl
        rw [hwaiting]
        ext k
        rw [Finmap.mem_keys, ← Finmap.lookup_isSome, hlookup hlt k]
        by_cases hk : k ∈ blocksOf st p
        · simp [hk]
        · simp only [if_neg hk, Finmap.lookup_isSome, Finset.mem_sdiff]
          rw [← Finmap.mem_keys, hcoh]
          exact (and_iff_left hk).symm
      · show (st.invalidate_piece p).endgame_cnt +
          (st.invalidate_piece p).pieces.bits.card = (st.invalidate_piece p).pieces.len
        simp only [Picker.invalidate_piece, if_neg hle]
        show st.endgame_cnt + ((Finset.range st.scale).image (fun i => p * st.scale + i) ∩
            st.pieces.bits).card + (st.pieces.bits \
            (Finset.range st.scale).image (fun i => p * st.scale + i)).card = st.pieces.len
        have hsplit := Finset.card_inter_add_card_sdiff st.pieces.bits
          ((Finset.range st.scale).image (fun i => p * st.scale + i))
        have hacct2 := hacct
        unfold Picker.EndgameAcct at hacct2
        rw [Finset.inter_comm] at hsplit
        omega
      · intro b hb hlen
        have hpi : (st.invalidate_piece p).piece_idx =
            (if p < st.piece_idx then p else st.piece_idx) := by
          simp only [Picker.invalidate_piece, if_neg hle]
        have hsc : (st.invalidate_piece p).scale = st.scale := by
          simp only [Picker.invalidate_piece, if_neg hle]
        have hplen : (st.invalidate_piece p).pieces.len = st.pieces.len := by
          simp only [Picker.invalidate_piece, if_neg hle]
        rw [hpi, hsc] at hb
        rw [hplen] at hlen
        have hble1 : (if p < st.piece_idx then p else st.piece_idx) * st.scale ≤
            st.piece_idx * st.scale := Nat.mul_le_mul_right _ hpiece_le
        have hble2 : (if p < st.piece_idx then p else st.piece_idx) * st.scale ≤
            p * st.scale := Nat.mul_le_mul_right _ hpiece_lep
        have hbold : b < st.piece_idx * st.scale := by omega
        have hbp : b < p * st.scale := by omega
        obtain ⟨hbit, hnw⟩ := hbcd b hbold hlen
        have hnb : b ∉ blocksOf st p := by
          intro hmem
          obtain ⟨i, _, hbi⟩ := mem_blocksOf.mp hmem
          omega
        constructor
        · simp only [Picker.invalidate_piece, if_neg hle]
          exact Finset.mem_sdiff.mpr ⟨hbit, hnb⟩
        · simp only [Picker.invalidate_piece, if_neg hle]
          intro hmem
          exact hnw (Finset.mem_sdiff.mp hmem).1
      · intro b hb
        simp only [Picker.invalidate_piece, if_neg hle] at hb ⊢
        rcases Finset.mem_sdiff.mp hb with ⟨hbw, hnb⟩
        exact Finset.mem_sdiff.mpr ⟨hws b hbw, hnb⟩

/-! ## Concrete states and witnesses -/

/-- The sizing scenario of the spec (S1): 8 pieces of 262144 bytes, total
2000000 bytes, hence scale 16 and 123 sub-blocks. -/
def exInfo : Info := ⟨262144, 2000000, 8⟩

def exNew : Picker := Picker.new exInfo

/-- Peer 3 advertising piece 0 of the S1 torrent. -/
def exPeer : Peer := ⟨3, ⟨8, {0}⟩⟩

/-- The picker state after the first pick of the S1 torrent. -/
def exNewPicked : Picker := ((exNew.pick exPeer).getD (exNew, none)).1

/-- A peer advertising nothing, for the endgame nothing-case. -/
def exC2wPeer : Peer := ⟨9, ⟨1, ∅⟩⟩

theorem pick_only_advertised_witness : (0 : Nat) ∈ exPeer.pieces.bits :=
  (pick_only_advertised exNew exPeer (by decide) exNewPicked (some (0, 0)) rfl).1 0 0 rfl

/-- The picker state after the endgame pick of exC2st by exC2peer. -/
def exC2stPicked : Picker := ((exC2st.pick exC2peer).getD (exC2st, none)).1

theorem pick_endgame_amended_witness :
    (∃ q ∈ exC2st.waiting, q / exC2st.scale ∈ exC2peer.pieces.bits ∧
      (0 : Nat) = q / exC2st.scale ∧ (0 : Nat) = q % exC2st.scale * 16384 ∧
      exC2peer.id ∈ (exC2stPicked.waiting_peers.lookup q).getD ∅ ∧
      ∃ s, exC2st.waiting_peers.lookup q = some s ∧
        exC2stPicked.waiting_peers = exC2st.waiting_peers.insert q (insert exC2peer.id s)) ∧
    exC2st.pick exC2wPeer = some (exC2st, none) :=
  ⟨(pick_endgame_amended exC2st exC2peer rfl (by decide) (by decide) (by decide)).1
      exC2stPicked 0 0 rfl,
    (pick_endgame_amended exC2st exC2wPeer rfl (by decide) (by decide) (by decide)).2.2
      (by decide)⟩

theorem completed_unknown_amended_witness : (exC3st.completed 0 0).2.2 = ∅ :=
  (completed_unknown_amended exC3st 0 0 (by decide) (by decide)).1

theorem invalidate_piece_spec_witness :
    (exC2st.invalidate_piece 0).endgame_cnt =
      exC2st.endgame_cnt + (blocksOf exC2st 0 ∩ exC2st.pieces.bits).card :=
  ((invalidate_piece_spec exC2st 0 (by decide)).2.1 (by decide)).2.2.2.2.1

theorem waiter_coherence_witness : ((exC3st.completed 0 0).1).WaiterCoherent :=
  (waiter_coherence exInfo).2.2 exC3st 0 0 (by decide)

theorem endgame_accounting_witness : exNewPicked.EndgameAcct :=
  (endgame_accounting exInfo).2.1 exNew exPeer exNewPicked (some (0, 0))
    (by decide) (by decide) rfl

theorem below_cursor_done_witness : ((exC3st.completed 0 0).1).BelowCursorDone :=
  (below_cursor_done exC3st).2 0 0 (by decide)

theorem cursor_monotone_witness : exNew.piece_idx ≤ exNewPicked.piece_idx :=
  pick_completed_cursor_monotone.1 exNew exPeer exNewPicked (some (0, 0)) rfl

theorem file_cache_bounded_witness :
    (FileCache.new.get_file 1 5 true).files.card ≤ 1 :=
  (file_cache_bounded 1 (by decide)).2.1 FileCache.new 5 true (by decide)

theorem pick_never_panics_witness : (exC2st.pick exC2peer).isSome :=
  pick_never_panics exC2st exC2peer (by decide)
